import Mathlib

/-!
Verification of the `nnu` walk-back dataset and stochastic sampling layers.

Shallow embedding of `src/nnu/nn/autoencoder/DAE.py` and
`src/nnu/nn/module/sample.py`.

Tensors appearing only through their batch dimension (the walk-back dataset)
are embedded as Lean lists: a batch is a `List β` of samples, a chain is a
`List (List β)`.  The model and the corruption function are abstract
batch-to-batch functions, exactly as they are opaque collaborators in the
source.  Python's `list[int]` indexing (negative indices address from the
end, out-of-range raises `IndexError`) is embedded by `pyIndex` returning
`Option`; `//` and `%` on Python ints are floor division and floor modulus,
i.e. `Int.fdiv` and `Int.fmod`.

The stochastic layers of `sample.py` work on real tensors; `exp` and `log`
(torch capabilities, excluded collaborators per the spec) are passed as
explicit function arguments so the definitions stay executable, and the
claim theorems instantiate them with `Real.exp` / `Real.log`.
-/

namespace Nnu

/-- Python list indexing `l[i]` for `i : Int`: a negative index addresses
from the end; an index out of range raises `IndexError`, embedded as
`none`. -/
def pyIndex {α : Type*} (l : List α) (i : Int) : Option α :=
  if 0 ≤ i then l[i.toNat]?
  else if 0 ≤ (l.length : Int) + i then l[((l.length : Int) + i).toNat]?
  else none

/-- The loop of the generator `_chain` inside `chain` (DAE.py lines 22-25):
starting from the current corrupted value `c`, repeat `k` times
`x = model(c); c = corrupt(x); yield c`. -/
def chainFrom {α : Type*} (model corrupt : α → α) : α → Nat → List α
  | _, 0 => []
  | c, k + 1 =>
    let c2 := corrupt (model c)
    c2 :: chainFrom model corrupt c2 k

/-- Embedding of `chain(x, model, corrupt, n)` (DAE.py lines 18-26): yield
`c0 = corrupt(x)`, then loop `n - 1` times.  Note that `c0` is yielded
unconditionally, so the result has `max 1 n` elements, not `n`:
for `n = 0` Python's `range(n - 1) = range(-1)` is empty and the list is
`[c0]`. -/
def chain {α : Type*} (x : α) (model corrupt : α → α) (n : Nat) : List α :=
  corrupt x :: chainFrom model corrupt (corrupt x) (n - 1)

/-- Embedding of `WalkbackDataset._chain` (DAE.py lines 56-65), device moves dropped:
yield the original batch `x`, then `c = corrupt(x)`, then loop
`self.n - 2` times.  `n` here is the stored `self.n = 2 + n_walkback`. -/
def wchain {α : Type*} (model corrupt : α → α) (n : Nat) (x : α) : List α :=
  x :: corrupt x :: chainFrom model corrupt (corrupt x) (n - 2)

/-- The state of a constructed `WalkbackDataset`: the configured
`batch_size`, `self.n = 2 + n_walkback`, and `self.data`, a list of
`(original_batch, chain)` records. -/
structure WalkbackDataset (β : Type*) where
  batch_size : Nat
  n : Nat
  data : List (List β × List (List β))

/-- Embedding of `torch.utils.data.DataLoader(x, batch_size, shuffle=False)`: partition
a list into consecutive batches of `bs` elements, the last batch possibly
smaller, never empty.  (`bs = 0` is rejected by torch; we return `[]`.)
Written with a fuel argument (`fuel = l.length` always suffices for
`bs ≠ 0`) so the recursion is structural. -/
def toBatchesGo {β : Type*} (bs : Nat) : Nat → List β → List (List β)
  | _, [] => []
  | 0, _ :: _ => []
  | fuel + 1, x :: xs =>
    if bs = 0 then []
    else (x :: xs).take bs :: toBatchesGo bs fuel ((x :: xs).drop bs)

def toBatches {β : Type*} (bs : Nat) (l : List β) : List (List β) :=
  toBatchesGo bs l.length l

/-- Embedding of `WalkbackDataset.__init__` (DAE.py lines 34-54), device moves and
gradient bookkeeping dropped: batch the base collection without shuffling
and store `(batch, list(self._chain(batch)))` for each batch. -/
def mkWalkbackDataset {β : Type*} (base : List β)
    (model corrupt : List β → List β) (n_walkback batch_size : Nat) :
    WalkbackDataset β :=
  { batch_size := batch_size
    n := 2 + n_walkback
    data := (toBatches batch_size base).map
      fun b => (b, wchain model corrupt (2 + n_walkback) b) }

/-- Embedding of `WalkbackDataset.__len__` (DAE.py lines 86-87):
`(len(data) - 1) * batch_size * n + n * len(data[-1][0])`.
(For empty `data` Python raises; the claims only concern datasets built
from a non-empty base, whose `data` is non-empty.) -/
def WalkbackDataset.len {β : Type*} (d : WalkbackDataset β) : Nat :=
  (d.data.length - 1) * d.batch_size * d.n +
    d.n * (d.data.getLastD ([], [])).1.length

/-- Embedding of `WalkbackDataset.__getitem__` (DAE.py lines 67-84), with
Python integer semantics: the guard is the source's (broken)
`0 > i > len(self)` chained comparison, `//`/`%` are floor
division/modulus, and each subscript is `pyIndex` (so an `IndexError`
from any subscript is `none`). -/
def WalkbackDataset.getItem {β : Type*} (d : WalkbackDataset β) (i : Int) :
    Option (β × β) :=
  if 0 > i ∧ i > (d.len : Int) then none
  else
    let stride : Int := (d.batch_size : Int) * (d.n : Int)
    let b_index : Int := i.fdiv stride
    let i' : Int := i.fmod stride
    (pyIndex d.data b_index).bind fun r =>
      let bs' : Int := (r.1.length : Int)
      let c_index : Int := i'.fdiv bs'
      let e_index : Int := i'.fmod bs'
      (pyIndex r.2 c_index).bind fun c =>
        (pyIndex c e_index).bind fun x =>
          (pyIndex r.1 e_index).map fun y => (x, y)

/-- Brute-force in-order enumeration of the dataset: over batches, then
chain positions, then batch elements, pairing `chain[c][e]` with
`original_batch[e]` (the `zip` enumerates elements once the chain rows
have the batch's length). -/
def bruteForce {β : Type*} (d : WalkbackDataset β) : List (β × β) :=
  d.data.flatMap fun r => r.2.flatMap fun c => c.zip r.1

/-- The index arithmetic of `__getitem__` specialized to a non-negative
index `i` (where Python's floor division and modulus agree with the
natural-number ones and no subscript is negative). -/
def getNat {β : Type*} (rs : List (List β × List (List β))) (bs n i : Nat) :
    Option (β × β) :=
  (rs[i / (bs * n)]?).bind fun r =>
    (r.2[i % (bs * n) / r.1.length]?).bind fun ch =>
      (ch[i % (bs * n) % r.1.length]?).bind fun x =>
        (r.1[i % (bs * n) % r.1.length]?).map fun y => (x, y)

/-!
Embedding of `src/nnu/nn/module/sample.py`.  A tensor is a shape together
with its flat (row-major) data.  `exp` and `log` (the torch capabilities
`tensor.exp()`, `logsumexp`, ...) are explicit function arguments; the
claim theorems instantiate them at `Real.exp` / `Real.log`.
-/

/-- A tensor: its shape and its flat row-major data. -/
structure Tensor (F : Type*) where
  shape : List Nat
  data : List F
deriving DecidableEq

/-- A latent-shape specification as accepted by the stochastic layers:
a bare integer or a sequence of integers. -/
inductive ShapeSpec where
  | scalar : Nat → ShapeSpec
  | seq : List Nat → ShapeSpec

/-- Modelled from the spec: `as_shape` of the missing `nnu/nn/shape.py`
"normalizes a shape specification (scalar or sequence) into a canonical
tuple form". -/
def as_shape : ShapeSpec → List Nat
  | .scalar n => [n]
  | .seq l => l

/-- Modelled from the spec: `OneHotEmbedding(D)` of the missing
`nnu/nn/module/embed.py`, the "fixed one-hot table" embedding capability:
index `j` maps to the length-`D` vector with a `1` in position `j` and
`0` elsewhere. -/
def oneHotEmbedding {F : Type*} [Zero F] [One F] (D j : Nat) : List F :=
  (List.range D).map fun k => if k = j then 1 else 0

/-- State of a constructed `CategoricalStraightThrough` layer. -/
structure CategoricalStraightThrough where
  latent_shape : List Nat
  normalise : Bool
  onehot : Bool

/-- Embedding of `CategoricalStraightThrough.__init__` (sample.py lines
23-42): `assert len(latent_shape) == 1` after `as_shape`; an
`AssertionError` at construction is `none`. -/
def mkCategoricalStraightThrough (latent_shape : ShapeSpec)
    (normalise onehot : Bool) : Option CategoricalStraightThrough :=
  let ls := as_shape latent_shape
  if ls.length = 1 then some ⟨ls, normalise, onehot⟩ else none

/-- State of a constructed `DiagonalGuassian` layer (spelling as in the
source). -/
structure DiagonalGuassian where
  latent_shape : List Nat

/-- Embedding of `DiagonalGuassian.__init__` (sample.py lines 94-98):
raises `ValueError` unless the normalized latent shape has rank 1. -/
def mkDiagonalGuassian (latent_shape : ShapeSpec) : Option DiagonalGuassian :=
  let ls := as_shape latent_shape
  if ls.length = 1 then some ⟨ls⟩ else none

/-- Embedding of `torch.softmax(row, dim)` on one row. -/
def softmax {F : Type*} [Field F] (exp : F → F) (l : List F) : List F :=
  l.map fun z => exp z / (l.map exp).sum

/-- Embedding of `row.logsumexp(dim=-1)` on one row. -/
def logsumexp {F : Type*} [Field F] (exp log : F → F) (l : List F) : F :=
  log ((l.map exp).sum)

/-- One row of `logits - logits.logsumexp(dim=-1, keepdim=True)`
(sample.py line 58). -/
def normRow {F : Type*} [Field F] (exp log : F → F) (l : List F) : List F :=
  l.map fun z => z - logsumexp exp log l

/-- Forward value of `.detach()`: detaching only cuts the gradient path,
the forward value is unchanged, so on forward values it is the
identity. -/
def detach {F : Type*} (l : List F) : List F := l

/-- Forward value of one row of the straight-through output (sample.py
line 64): `sample + probs - probs.detach()`, where `embedRow` is the
embedding of this row's drawn index. -/
def stRow {F : Type*} [Field F] (exp : F → F) (embedRow row : List F) :
    List F :=
  let probs := softmax exp row
  (embedRow.zipWith (· + ·) probs).zipWith (· - ·) (detach probs)

/-- Embedding of `CategoricalStraightThrough.forward` (sample.py lines
44-65) on forward values.  `logits.reshape(-1, D)` fails unless `D`
divides the element count; `draw r` is the index drawn by
`torch.multinomial` for row `r`; `embed` is the embedding capability.
Returns `(ret.view(original_shape), logits)` with the (possibly
normalised) logits in shape `(N, D)`. -/
def categoricalForward {F : Type*} [Field F] (exp log : F → F)
    (embed : Nat → List F) (normalise : Bool) (D : Nat) (draw : Nat → Nat)
    (logits : Tensor F) : Option (Tensor F × Tensor F) :=
  if D ≠ 0 ∧ D ∣ logits.data.length then
    let rows := toBatches D logits.data
    let rows' := if normalise then rows.map (normRow exp log) else rows
    let outRows := rows'.enum.map fun p => stRow exp (embed (draw p.1)) p.2
    some (⟨logits.shape, outRows.flatten⟩,
      ⟨[logits.data.length / D, D], rows'.flatten⟩)
  else none

/-- Embedding of `t.reshape(-1, D)`: infers the leading dimension from
the element count; fails unless `D` divides it. -/
def reshapeRows {F : Type*} (t : Tensor F) (D : Nat) : Option (Tensor F) :=
  if D ≠ 0 ∧ D ∣ t.data.length then
    some ⟨[t.data.length / D, D], t.data⟩
  else none

/-- Embedding of `DiagonalGuassian.forward` (sample.py lines 100-122):
assert `mu.shape == logvar.shape`, reshape both to `(-1, D)`, form
`sample = noise * exp(logvar / 2) + mu` (where `noise` stands for
`torch.empty_like(mu).normal_()`), and return
`(sample.view(original_shape), mu, logvar)` with `mu`, `logvar` still in
their reshaped `(N, D)` form. -/
def diagonalGuassianForward {F : Type*} [Field F] (exp : F → F)
    (noise : List F) (D : Nat) (mu logvar : Tensor F) :
    Option (Tensor F × Tensor F × Tensor F) :=
  if mu.shape = logvar.shape then
    (reshapeRows mu D).bind fun mu' =>
      (reshapeRows logvar D).bind fun logvar' =>
        some (⟨mu.shape,
          (noise.zip (mu'.data.zip logvar'.data)).map
            fun p => p.1 * exp (p.2.2 / 2) + p.2.1⟩, mu', logvar')
  else none

/-- Embedding of `DiagonalGuassian.kl_divergence` (sample.py lines
124-145) on one last-axis row.  Supplying exactly one of `mu2` /
`logvar2` trips the `assert` (`none`).  Elementwise tensor arithmetic on
same-shape rows is `zip`-then-`map`; `.sum(dim=-1)` is the row sum and
`mu1.shape[-1]` the row length. -/
def kl_divergence {F : Type*} [Field F] (exp : F → F) (mu1 logvar1 : List F)
    (mu2 logvar2 : Option (List F)) : Option F :=
  match mu2, logvar2 with
  | none, none =>
      some ((((mu1.zip logvar1).map fun p => p.1 ^ 2 + exp p.2 - p.2).sum -
        (mu1.length : F)) / 2)
  | some m2, some lv2 =>
      some (((((mu1.zip logvar1).zip (m2.zip lv2)).map fun p =>
        p.1.2 - p.2.2 + (p.1.1 - p.2.1) * (1 / exp p.2.2) * (p.1.1 - p.2.1) +
          (1 / exp p.2.2) * exp p.1.2).sum - (mu1.length : F)) / 2)
  | _, _ => none

/-! Basic facts about the chain generator. -/

theorem chainFrom_length {α : Type*} (model corrupt : α → α) (x : α) (k : Nat) :
    (chainFrom model corrupt x k).length = k := by
  induction k generalizing x with
  | zero => rfl
  | succ k ih => simp [chainFrom, ih]

theorem chainFrom_getElem_succ {α : Type*} (model corrupt : α → α) :
    ∀ (k : Nat) (z : α) (j : Nat), j + 1 < k →
      (chainFrom model corrupt z k)[j + 1]? =
        ((chainFrom model corrupt z k)[j]?).map fun p => corrupt (model p) := by
  intro k
  induction k with
  | zero => omega
  | succ k ih =>
    intro z j hj
    match j with
    | 0 =>
      have hk : 1 ≤ k := by omega
      match k, hk with
      | k + 1, _ => simp [chainFrom]
    | j + 1 =>
      have := ih (corrupt (model z)) j (by omega)
      simpa [chainFrom] using this

theorem chainFrom_shape {α : Type*} {γ : Type*} (model corrupt : α → α)
    (sh : α → γ) (hc : ∀ z, sh (corrupt z) = sh z)
    (hm : ∀ z, sh (model z) = sh z) :
    ∀ (k : Nat) (z : α), ∀ e ∈ chainFrom model corrupt z k, sh e = sh z := by
  intro k
  induction k with
  | zero => simp [chainFrom]
  | succ k ih =>
    intro z e he
    simp only [chainFrom, List.mem_cons] at he
    rcases he with rfl | he
    · rw [hc, hm]
    · rw [ih _ e he, hc, hm]

/-- C5: the chain stored by `WalkbackDataset` for a batch `x` (its
`_chain`, device moves ignored) is the original batch prepended to the
standalone `chain` generator run with seed `x` and depth `n_total - 1`;
it has length `n_total = 2 + n_walkback` and its element 0 is the
unmodified original batch. -/
theorem wchain_eq_cons_chain {α : Type*} (model corrupt : α → α)
    (n_walkback : Nat) (x : α) :
    wchain model corrupt (2 + n_walkback) x =
        x :: chain x model corrupt ((2 + n_walkback) - 1) ∧
    (wchain model corrupt (2 + n_walkback) x).length = 2 + n_walkback ∧
    (wchain model corrupt (2 + n_walkback) x)[0]? = some x := by
  refine ⟨?_, ?_, rfl⟩
  · have h2 : 2 + n_walkback - 2 = n_walkback := by omega
    have h1 : 2 + n_walkback - 1 - 1 = n_walkback := by omega
    simp [wchain, chain, h1, h2]
  · simp only [wchain, List.length_cons, chainFrom_length]
    omega

/-- C4 counterexample: with depth `n = 0` the chain generator still
yields one element (Python's `range(-1)` is empty but `c0` is yielded
unconditionally), and with a step function that does not preserve shape
(here: length) an element of the chain differs in shape from the seed
even though the corruption function (`id`) is shape-preserving. -/
theorem chain_depth_zero_and_shape_counterexample :
    ¬ (chain [0] (fun _ => ([] : List Nat)) id 0).length = 0 ∧
    ¬ (∀ e ∈ chain [0] (fun _ => ([] : List Nat)) id 2,
        e.length = ([0] : List Nat).length) := by
  constructor
  · decide
  · intro h
    have := h [] (by decide)
    simp at this

/-- C4 (amended): for every seed, step function, corruption function and
depth `n ≥ 1`, the chain generator returns exactly `n` elements, element
0 is `corrupt seed`, element `i` (for `1 ≤ i ≤ n - 1`) is
`corrupt (step (element (i-1)))`, and whenever both the corruption and
the step function preserve shape, every element has the shape of the
seed. -/
theorem chain_spec {α : Type*} (x : α) (model corrupt : α → α) (n : Nat)
    (hn : 1 ≤ n) :
    (chain x model corrupt n).length = n ∧
    (chain x model corrupt n)[0]? = some (corrupt x) ∧
    (∀ i, i + 1 < n → (chain x model corrupt n)[i + 1]? =
      ((chain x model corrupt n)[i]?).map fun p => corrupt (model p)) ∧
    (∀ {γ : Type*} (sh : α → γ), (∀ z, sh (corrupt z) = sh z) →
      (∀ z, sh (model z) = sh z) →
      ∀ e ∈ chain x model corrupt n, sh e = sh x) := by
  refine ⟨?_, by simp [chain], ?_, ?_⟩
  · simp only [chain, List.length_cons, chainFrom_length]
    omega
  · intro i hi
    match i with
    | 0 =>
      have hn2 : 2 ≤ n := by omega
      have h1 : 1 ≤ n - 1 := by omega
      match hk : n - 1, h1 with
      | k + 1, _ => simp [chain, hk, chainFrom]
    | i + 1 =>
      have := chainFrom_getElem_succ model corrupt (n - 1) (corrupt x) i
        (by omega)
      simpa [chain] using this
  · intro γ sh hc hm e he
    simp only [chain, List.mem_cons] at he
    rcases he with rfl | he
    · exact hc x
    · rw [chainFrom_shape model corrupt sh hc hm _ _ e he, hc]

/-! Facts about the batch partition. -/

theorem toBatchesGo_irrel {β : Type*} (bs : Nat) (hbs : bs ≠ 0) :
    ∀ (f1 : Nat), ∀ (f2 : Nat) (l : List β), l.length ≤ f1 → l.length ≤ f2 →
      toBatchesGo bs f1 l = toBatchesGo bs f2 l := by
  intro f1
  induction f1 with
  | zero =>
    intro f2 l h1 _
    have : l = [] := List.length_eq_zero.mp (Nat.le_zero.mp h1)
    subst this
    cases f2 <;> rfl
  | succ g1 ih =>
    intro f2 l h1 h2
    cases l with
    | nil => cases f2 <;> rfl
    | cons x xs =>
      cases f2 with
      | zero => simp at h2
      | succ g2 =>
        simp only [toBatchesGo, if_neg hbs]
        refine congrArg _ (ih g2 _ ?_ ?_) <;>
          simp only [List.length_drop, List.length_cons] <;>
          simp only [List.length_cons] at h1 h2 <;> omega

theorem toBatches_nil {β : Type*} (bs : Nat) :
    toBatches bs ([] : List β) = [] := rfl

theorem toBatches_cons {β : Type*} {bs : Nat} (hbs : bs ≠ 0) (x : β)
    (xs : List β) :
    toBatches bs (x :: xs) =
      (x :: xs).take bs :: toBatches bs ((x :: xs).drop bs) := by
  show toBatchesGo bs (xs.length + 1) (x :: xs) = _
  simp only [toBatchesGo, if_neg hbs]
  refine congrArg _ (toBatchesGo_irrel bs hbs _ _ _ ?_ le_rfl)
  simp only [List.length_drop, List.length_cons]
  omega

/-- Custom induction principle mirroring the recursion pattern of the
batch partition. -/
theorem toBatches_induction {β : Type*} (bs : Nat) (motive : List β → Prop)
    (case1 : motive [])
    (case2 : ∀ (x : β) (xs : List β), bs = 0 → motive (x :: xs))
    (case3 : ∀ (x : β) (xs : List β), ¬bs = 0 →
      motive (List.drop bs (x :: xs)) → motive (x :: xs)) :
    ∀ l, motive l := by
  have aux : ∀ (n : Nat) (l : List β), l.length ≤ n → motive l := by
    intro n
    induction n with
    | zero =>
      intro l hl
      have : l = [] := List.length_eq_zero.mp (Nat.le_zero.mp hl)
      exact this ▸ case1
    | succ n ih =>
      intro l hl
      cases l with
      | nil => exact case1
      | cons x xs =>
        by_cases hbs : bs = 0
        · exact case2 x xs hbs
        · refine case3 x xs hbs (ih _ ?_)
          simp only [List.length_drop, List.length_cons]
          simp only [List.length_cons] at hl
          omega
  exact fun l => aux l.length l le_rfl

theorem toBatches_eq_nil_iff {β : Type*} {bs : Nat} (hbs : bs ≠ 0)
    (l : List β) : toBatches bs l = [] ↔ l = [] := by
  cases l with
  | nil => simp [toBatches_nil]
  | cons x xs => simp [toBatches_cons hbs]

theorem toBatches_mem {β : Type*} {bs : Nat} (hbs : bs ≠ 0) (l : List β) :
    ∀ b ∈ toBatches bs l, b.length ≤ bs ∧ b ≠ [] := by
  induction l using toBatches_induction bs with
  | case1 => simp [toBatches_nil]
  | case2 x xs h => exact absurd h hbs
  | case3 x xs h ih =>
    rw [toBatches_cons hbs]
    intro b hb
    rcases List.mem_cons.mp hb with rfl | hb
    · refine ⟨?_, by simp [List.take_eq_nil_iff, hbs]⟩
      simp only [List.length_take, List.length_cons]
      omega
    · exact ih b hb

theorem toBatches_dropLast {β : Type*} {bs : Nat} (hbs : bs ≠ 0)
    (l : List β) : ∀ b ∈ (toBatches bs l).dropLast, b.length = bs := by
  induction l using toBatches_induction bs with
  | case1 => simp [toBatches_nil]
  | case2 x xs h => exact absurd h hbs
  | case3 x xs h ih =>
    rw [toBatches_cons hbs]
    by_cases hd : (x :: xs).drop bs = []
    · simp [hd, toBatches_nil]
    · have hlen : bs < (x :: xs).length := by
        by_contra hle
        exact hd (List.drop_eq_nil_of_le (by omega))
      have htb : toBatches bs ((x :: xs).drop bs) ≠ [] := by
        simp [toBatches_eq_nil_iff hbs, hd]
      intro b hb
      rw [List.dropLast_cons_of_ne_nil htb] at hb
      rcases List.mem_cons.mp hb with rfl | hb
      · simp only [List.length_cons] at hlen
        simp [List.length_take]
        omega
      · exact ih b hb

theorem toBatches_length_pos {β : Type*} {bs : Nat} (hbs : bs ≠ 0)
    (l : List β) (hl : l ≠ []) : 0 < (toBatches bs l).length := by
  have := (toBatches_eq_nil_iff hbs l).not.mpr hl
  exact List.length_pos.mpr this

theorem toBatches_length {β : Type*} {bs : Nat} (hbs : bs ≠ 0)
    (l : List β) (hl : l ≠ []) :
    (toBatches bs l).length = (l.length + bs - 1) / bs := by
  induction l using toBatches_induction bs with
  | case1 => exact absurd rfl hl
  | case2 x xs h => exact absurd h hbs
  | case3 x xs h ih =>
    rw [toBatches_cons hbs]
    by_cases hd : (x :: xs).drop bs = []
    · have hle : xs.length + 1 ≤ bs := by
        have := List.drop_eq_nil_iff.mp hd
        simpa using this
      rw [hd]
      have h1 : (xs.length + bs) / bs = 1 :=
        Nat.div_eq_of_lt_le (by omega) (by omega)
      simp [toBatches_nil, h1]
    · have hgt : bs < xs.length + 1 := by
        by_contra hle
        refine hd (List.drop_eq_nil_of_le ?_)
        simp only [List.length_cons]
        omega
      have hrec := ih hd
      have hnum : ((x :: xs).drop bs).length + bs - 1 = xs.length := by
        simp only [List.length_drop, List.length_cons]
        omega
      rw [hnum] at hrec
      simp only [List.length_cons, hrec]
      have h2 : xs.length + 1 + bs - 1 = xs.length + bs := by omega
      rw [h2, Nat.add_div_right _ (by omega)]

theorem getLastD_irrel {α : Type*} (l : List α) (hl : l ≠ []) (d1 d2 : α) :
    l.getLastD d1 = l.getLastD d2 := by
  cases l with
  | nil => exact absurd rfl hl
  | cons y ys => rw [List.getLastD_cons, List.getLastD_cons]

theorem toBatches_getLastD_length {β : Type*} {bs : Nat} (hbs : bs ≠ 0)
    (l : List β) (hl : l ≠ []) :
    ((toBatches bs l).getLastD []).length =
      l.length - ((toBatches bs l).length - 1) * bs := by
  induction l using toBatches_induction bs with
  | case1 => exact absurd rfl hl
  | case2 x xs h => exact absurd h hbs
  | case3 x xs h ih =>
    rw [toBatches_cons hbs]
    by_cases hd : (x :: xs).drop bs = []
    · have hle : xs.length + 1 ≤ bs := by
        have := List.drop_eq_nil_iff.mp hd
        simpa using this
      rw [hd]
      simp only [toBatches_nil, List.getLastD_cons, List.getLastD_nil,
        List.length_cons, List.length_nil, List.length_take]
      omega
    · have hgt : bs < xs.length + 1 := by
        by_contra hle
        refine hd (List.drop_eq_nil_of_le ?_)
        simp only [List.length_cons]
        omega
      have htb : toBatches bs ((x :: xs).drop bs) ≠ [] := by
        simp [toBatches_eq_nil_iff hbs, hd]
      have hrec := ih hd
      rw [List.getLastD_cons, getLastD_irrel _ htb _ [], hrec]
      obtain ⟨t, ht⟩ : ∃ t, (toBatches bs ((x :: xs).drop bs)).length = t + 1 :=
        ⟨(toBatches bs ((x :: xs).drop bs)).length - 1, by
          have := toBatches_length_pos hbs _ hd
          omega⟩
      simp only [List.length_drop, List.length_cons, List.length_nil, ht,
        Nat.add_sub_cancel, Nat.add_mul, Nat.one_mul]
      omega

/-! Generic indexing lemmas. -/

theorem pyIndex_ofNat {α : Type*} (l : List α) (k : Nat) :
    pyIndex l (k : Int) = l[k]? := by
  simp [pyIndex]

theorem zip_getElem? {α β : Type*} :
    ∀ (l₁ : List α) (l₂ : List β) (i : Nat),
      (l₁.zip l₂)[i]? =
        (l₁[i]?).bind fun a => (l₂[i]?).map fun b => (a, b) := by
  intro l₁
  induction l₁ with
  | nil => simp
  | cons a l ih =>
    intro l₂ i
    cases l₂ with
    | nil => simp
    | cons b l₂ =>
      cases i with
      | zero => simp [List.zip_cons_cons]
      | succ i => simpa [List.zip_cons_cons] using ih l₂ i

theorem flatMap_getElem?_uniform {α β : Type*} (g : α → List β) {s : Nat}
    (hs : s ≠ 0) :
    ∀ (l : List α), (∀ c ∈ l, (g c).length = s) → ∀ (i : Nat),
      (l.flatMap g)[i]? = (l[i / s]?).bind fun c => (g c)[i % s]? := by
  intro l
  induction l with
  | nil => simp
  | cons c rest ih =>
    intro hlen i
    rw [List.flatMap_cons]
    by_cases hi : i < s
    · rw [List.getElem?_append_left (by rw [hlen c (by simp)]; exact hi),
        Nat.div_eq_of_lt hi, Nat.mod_eq_of_lt hi]
      simp
    · push_neg at hi
      obtain ⟨j, rfl⟩ := Nat.exists_eq_add_of_le hi
      rw [List.getElem?_append_right (by rw [hlen c (by simp)]; omega),
        hlen c (by simp)]
      have hdiv : (s + j) / s = j / s + 1 := by
        rw [Nat.add_comm, Nat.add_div_right _ (by omega)]
      have hmod : (s + j) % s = j % s := by
        rw [Nat.add_comm, Nat.add_mod_right]
      rw [hdiv, hmod, Nat.add_sub_cancel_left, List.getElem?_cons_succ]
      exact ih (fun c' hc' => hlen c' (List.mem_cons_of_mem _ hc')) j

theorem flatMap_block_length {β : Type*} (r : List β × List (List β))
    (n : Nat) (hch : r.2.length = n)
    (hcl : ∀ c ∈ r.2, c.length = r.1.length) :
    (r.2.flatMap fun c => c.zip r.1).length = n * r.1.length := by
  rw [List.length_flatMap]
  have hmap : r.2.map (List.length ∘ fun c => c.zip r.1) =
      r.2.map fun _ => r.1.length := by
    refine List.map_congr_left fun c hc => ?_
    simp [List.length_zip, hcl c hc]
  rw [hmap, List.map_const', List.sum_const_nat, hch]

theorem flat_length_sum {β : Type*} (n : Nat) :
    ∀ (rs : List (List β × List (List β))),
      (∀ r ∈ rs, r.2.length = n) →
      (∀ r ∈ rs, ∀ c ∈ r.2, c.length = r.1.length) →
      (rs.flatMap fun r => r.2.flatMap fun c => c.zip r.1).length =
        (rs.map fun r => n * r.1.length).sum := by
  intro rs
  induction rs with
  | nil => simp
  | cons r rest ih =>
    intro hch hcl
    rw [List.flatMap_cons, List.length_append,
      flatMap_block_length r n (hch r (by simp)) (hcl r (by simp)),
      List.map_cons, List.sum_cons,
      ih (fun r' h' => hch r' (List.mem_cons_of_mem _ h'))
        (fun r' h' => hcl r' (List.mem_cons_of_mem _ h'))]

theorem toBatches_of_dvd {β : Type*} {D : Nat} (hD : D ≠ 0) (l : List β)
    (hdvd : D ∣ l.length) :
    (∀ b ∈ toBatches D l, b.length = D) ∧
      (toBatches D l).length = l.length / D := by
  induction l using toBatches_induction D with
  | case1 => simp [toBatches_nil]
  | case2 x xs h => exact absurd h hD
  | case3 x xs h ih =>
    have hlen : D ≤ xs.length + 1 := by
      have := Nat.le_of_dvd (by simp) hdvd
      simpa using this
    have hdrop_dvd : D ∣ ((x :: xs).drop D).length := by
      simp only [List.length_drop]
      exact Nat.dvd_sub' hdvd dvd_rfl
    obtain ⟨hmem, hcnt⟩ := ih hdrop_dvd
    rw [toBatches_cons hD]
    constructor
    · intro b hb
      rcases List.mem_cons.mp hb with rfl | hb
      · simp only [List.length_take, List.length_cons]
        omega
      · exact hmem b hb
    · obtain ⟨k, hk⟩ := hdvd
      simp only [List.length_cons] at hk
      have hk1 : 1 ≤ k := by
        rcases Nat.eq_zero_or_pos k with rfl | hpos
        · omega
        · exact hpos
      simp only [List.length_cons, hcnt, List.length_drop, List.length_cons,
        hk]
      have hsub : D * k - D = D * (k - 1) := by
        rw [Nat.mul_sub]
        omega
      rw [hsub, Nat.mul_div_cancel_left _ (by omega : 0 < D),
        Nat.mul_div_cancel_left _ (by omega : 0 < D)]
      omega

/-! Relating the closed-form length to the per-record sum. -/

theorem closedForm_eq_sum {β : Type*} (bs n : Nat) :
    ∀ (rs : List (List β × List (List β))), rs ≠ [] →
      (∀ r ∈ rs.dropLast, r.1.length = bs) →
      (rs.length - 1) * bs * n + n * (rs.getLastD ([], [])).1.length =
        (rs.map fun r => n * r.1.length).sum := by
  intro rs
  induction rs with
  | nil => intro h _; exact absurd rfl h
  | cons r rest ih =>
    intro _ hfull
    cases rest with
    | nil => simp [List.getLastD_cons, Nat.mul_comm]
    | cons r' rest' =>
      have hr : r.1.length = bs :=
        hfull r (by rw [List.dropLast_cons₂]; exact List.mem_cons_self _ _)
      have hfull' : ∀ q ∈ (r' :: rest').dropLast, q.1.length = bs := fun q hq =>
        hfull q (by rw [List.dropLast_cons₂]; exact List.mem_cons_of_mem _ hq)
      have ih' := ih (by simp) hfull'
      rw [List.map_cons, List.sum_cons, ← ih', List.getLastD_cons,
        getLastD_irrel (r' :: rest') (by simp) r ([], [])]
      simp only [List.length_cons, hr, Nat.add_sub_cancel]
      have h1 : (rest'.length + 1) * bs * n = rest'.length * bs * n + bs * n := by
        ring
      have h2 : n * bs = bs * n := Nat.mul_comm n bs
      omega

theorem wchain_len {α : Type*} (model corrupt : α → α) (nw : Nat) (x : α) :
    (wchain model corrupt (2 + nw) x).length = 2 + nw := by
  simp only [wchain, List.length_cons, chainFrom_length]
  omega

theorem wchain_row_length {β : Type*} (model corrupt : List β → List β)
    (hm : ∀ l, (model l).length = l.length)
    (hc : ∀ l, (corrupt l).length = l.length) (n : Nat) (b : List β) :
    ∀ cw ∈ wchain model corrupt n b, cw.length = b.length := by
  intro cw hcw
  simp only [wchain, List.mem_cons] at hcw
  rcases hcw with rfl | rfl | hcw
  · rfl
  · exact hc b
  · rw [chainFrom_shape model corrupt List.length hc hm _ _ cw hcw, hc]

/-- The source's index-range guard `0 > i > len(self)` never fires, and
for a non-negative index the whole of `__getitem__` is the
natural-number index arithmetic `getNat`. -/
theorem getItem_eq_getNat {β : Type*} (d : WalkbackDataset β) (i : Nat) :
    d.getItem (i : Int) = getNat d.data d.batch_size d.n i := by
  unfold WalkbackDataset.getItem getNat
  rw [if_neg (by omega)]
  simp only [← Nat.cast_mul, ← Int.ofNat_fdiv, ← Int.ofNat_fmod, pyIndex_ofNat,
    Int.toNat_ofNat]

/-- Core induction: on any record list satisfying the construction
invariants (all batches but the last have the configured size, the last
is no larger, every record has an `n`-row chain whose rows match the
batch length), the `__getitem__` index arithmetic agrees with the
in-order flattening, at every natural index. -/
theorem getNat_eq_flat {β : Type*} {bs n : Nat} (hbs : bs ≠ 0) (hn : n ≠ 0) :
    ∀ (rs : List (List β × List (List β))),
      (∀ r ∈ rs.dropLast, r.1.length = bs) →
      (∀ r ∈ rs, r.1.length ≤ bs) →
      (∀ r ∈ rs, r.2.length = n) →
      (∀ r ∈ rs, ∀ cw ∈ r.2, cw.length = r.1.length) →
      ∀ i : Nat,
        getNat rs bs n i =
          (rs.flatMap fun r => r.2.flatMap fun cw => cw.zip r.1)[i]? := by
  intro rs
  induction rs with
  | nil => intro _ _ _ _ i; simp [getNat]
  | cons r rest ih =>
    intro hfull hle hch hcl i
    have hr2 : r.2.length = n := hch r (by simp)
    have hrcl : ∀ cw ∈ r.2, cw.length = r.1.length := hcl r (by simp)
    have hblock : (r.2.flatMap fun cw => cw.zip r.1).length = n * r.1.length :=
      flatMap_block_length r n hr2 hrcl
    rw [List.flatMap_cons]
    by_cases hi : i < n * r.1.length
    · have hsle : r.1.length ≤ bs := hle r (by simp)
      have hstride : i < bs * n := by
        calc i < n * r.1.length := hi
          _ ≤ n * bs := Nat.mul_le_mul_left n hsle
          _ = bs * n := Nat.mul_comm n bs
      have hs0 : r.1.length ≠ 0 := by
        intro h0
        rw [h0, Nat.mul_zero] at hi
        omega
      rw [List.getElem?_append_left (by rw [hblock]; exact hi)]
      unfold getNat
      rw [Nat.div_eq_of_lt hstride, Nat.mod_eq_of_lt hstride,
        flatMap_getElem?_uniform (fun cw => cw.zip r.1) hs0 r.2
          (fun cw hcw => by simp [List.length_zip, hrcl cw hcw]) i]
      simp only [List.getElem?_cons_zero, Option.some_bind]
      cases hcw : r.2[i / r.1.length]? with
      | none => simp
      | some cw =>
        simp only [Option.some_bind]
        rw [zip_getElem?]
    · push_neg at hi
      rw [List.getElem?_append_right (by rw [hblock]; exact hi), hblock]
      cases rest with
      | nil =>
        simp only [List.flatMap_nil, List.getElem?_nil]
        unfold getNat
        by_cases hlt : i < bs * n
        · rw [Nat.div_eq_of_lt hlt, Nat.mod_eq_of_lt hlt]
          simp only [List.getElem?_cons_zero, Option.some_bind]
          rcases Nat.eq_zero_or_pos r.1.length with hs0 | hs0
          · cases hcw : r.2[i / r.1.length]? with
            | none => simp
            | some cw =>
              have hcw0 : cw.length = 0 := by
                rw [hrcl cw (List.getElem?_mem hcw), hs0]
              simp [List.getElem?_eq_none
                (by omega : cw.length ≤ i % r.1.length)]
          · have hge : n ≤ i / r.1.length :=
              (Nat.le_div_iff_mul_le hs0).mpr hi
            rw [List.getElem?_eq_none
              (by rw [hr2]; exact hge : r.2.length ≤ i / r.1.length)]
            simp
        · have h1 : 1 ≤ i / (bs * n) :=
            (Nat.one_le_div_iff
              (Nat.mul_pos (Nat.pos_of_ne_zero hbs)
                (Nat.pos_of_ne_zero hn))).mpr (le_of_not_lt hlt)
          rw [List.getElem?_eq_none (by simpa using h1)]
          simp
      | cons r2 rest2 =>
        have hfr : r.1.length = bs :=
          hfull r (by rw [List.dropLast_cons₂]; exact List.mem_cons_self _ _)
        have hge : bs * n ≤ i := by
          rw [Nat.mul_comm bs n, ← hfr]
          exact hi
        obtain ⟨j, rfl⟩ := Nat.exists_eq_add_of_le hge
        have hstep : getNat (r :: r2 :: rest2) bs n (bs * n + j) =
            getNat (r2 :: rest2) bs n j := by
          unfold getNat
          have hd : (bs * n + j) / (bs * n) = j / (bs * n) + 1 := by
            rw [Nat.add_comm, Nat.add_div_right _
              (Nat.mul_pos (Nat.pos_of_ne_zero hbs) (Nat.pos_of_ne_zero hn))]
          have hm : (bs * n + j) % (bs * n) = j % (bs * n) := by
            rw [Nat.add_comm, Nat.add_mod_right]
          rw [hd, hm, List.getElem?_cons_succ]
        have hidx : bs * n + j - n * r.1.length = j := by
          rw [hfr, Nat.mul_comm n bs]
          omega
        rw [hstep, hidx]
        exact ih
          (fun q hq => hfull q
            (by rw [List.dropLast_cons₂]; exact List.mem_cons_of_mem _ hq))
          (fun q hq => hle q (List.mem_cons_of_mem _ hq))
          (fun q hq => hch q (List.mem_cons_of_mem _ hq))
          (fun q hq => hcl q (List.mem_cons_of_mem _ hq)) j

theorem getLastD_map {α β : Type*} (f : α → β) :
    ∀ (l : List α), l ≠ [] → ∀ (d : β) (d0 : α),
      (l.map f).getLastD d = f (l.getLastD d0) := by
  intro l
  induction l with
  | nil => intro h; exact absurd rfl h
  | cons y ys ih =>
    intro _ d d0
    rw [List.map_cons, List.getLastD_cons, List.getLastD_cons]
    cases ys with
    | nil => simp
    | cons z zs => exact ih (by simp) (f y) y

/-- C1: for every constructed `WalkbackDataset` (any base collection,
positive configured batch size, length-preserving model and corruption)
and every in-range index `i`, `__getitem__` returns exactly the pair
found at position `i` of the brute-force in-order enumeration over
batches, then chain positions, then batch elements — and it does return
a pair (the six-step decomposition never falls off a chain or batch). -/
theorem getItem_matches_bruteForce {β : Type*} (base : List β)
    (model corrupt : List β → List β) (nw bs : Nat) (hbs : bs ≠ 0)
    (hm : ∀ l, (model l).length = l.length)
    (hc : ∀ l, (corrupt l).length = l.length) (i : Nat)
    (hi : i < (mkWalkbackDataset base model corrupt nw bs).len) :
    (mkWalkbackDataset base model corrupt nw bs).getItem (i : Int) =
      (bruteForce (mkWalkbackDataset base model corrupt nw bs))[i]? ∧
    ((mkWalkbackDataset base model corrupt nw bs).getItem (i : Int)).isSome
      = true := by
  set d := mkWalkbackDataset base model corrupt nw bs with hd
  have hdata : d.data = (toBatches bs base).map
      (fun b => (b, wchain model corrupt (2 + nw) b)) := rfl
  have hfull : ∀ r ∈ d.data.dropLast, r.1.length = bs := by
    intro r hr
    rw [hdata, ← List.map_dropLast] at hr
    obtain ⟨b, hb, rfl⟩ := List.mem_map.mp hr
    exact toBatches_dropLast hbs base b hb
  have hle : ∀ r ∈ d.data, r.1.length ≤ bs := by
    intro r hr
    rw [hdata] at hr
    obtain ⟨b, hb, rfl⟩ := List.mem_map.mp hr
    exact (toBatches_mem hbs base b hb).1
  have hch : ∀ r ∈ d.data, r.2.length = d.n := by
    intro r hr
    rw [hdata] at hr
    obtain ⟨b, hb, rfl⟩ := List.mem_map.mp hr
    exact wchain_len model corrupt nw b
  have hcl : ∀ r ∈ d.data, ∀ cw ∈ r.2, cw.length = r.1.length := by
    intro r hr
    rw [hdata] at hr
    obtain ⟨b, hb, rfl⟩ := List.mem_map.mp hr
    exact wchain_row_length model corrupt hm hc (2 + nw) b
  have hnn : d.n ≠ 0 := by
    show 2 + nw ≠ 0
    omega
  have hne : d.data ≠ [] := by
    intro h0
    rw [WalkbackDataset.len, h0] at hi
    simp at hi
  have hmain := getNat_eq_flat hbs hnn d.data hfull hle hch hcl i
  have hbridge := getItem_eq_getNat d i
  have hlen_sum : d.len = (d.data.map fun r => d.n * r.1.length).sum := by
    rw [WalkbackDataset.len]
    exact closedForm_eq_sum d.batch_size d.n d.data hne hfull
  have hflat : (bruteForce d).length =
      (d.data.map fun r => d.n * r.1.length).sum :=
    flat_length_sum d.n d.data hch hcl
  have hb2 : d.batch_size = bs := rfl
  constructor
  · rw [hbridge]
    exact hmain
  · rw [hbridge, hb2, hmain]
    have hlt : i < (bruteForce d).length := by
      rw [hflat, ← hlen_sum]
      exact hi
    show ((bruteForce d)[i]?).isSome = true
    rw [List.getElem?_eq_getElem hlt]
    rfl

/-- C1 witness: the spec's own concrete scenario (5 samples,
`batch_size = 2`, `n_walkback = 1`), instantiated at index 7. -/
theorem getItem_matches_bruteForce_witness :
    (2 : Nat) ≠ 0 ∧
    7 < (mkWalkbackDataset [0, 1, 2, 3, 4] (fun l : List Nat => l)
      (fun l => l) 1 2).len ∧
    ((mkWalkbackDataset [0, 1, 2, 3, 4] (fun l : List Nat => l)
        (fun l => l) 1 2).getItem ((7 : Nat) : Int) =
      (bruteForce (mkWalkbackDataset [0, 1, 2, 3, 4]
        (fun l : List Nat => l) (fun l => l) 1 2))[7]? ∧
    ((mkWalkbackDataset [0, 1, 2, 3, 4] (fun l : List Nat => l)
        (fun l => l) 1 2).getItem ((7 : Nat) : Int)).isSome = true) :=
  ⟨by decide, by decide,
    getItem_matches_bruteForce [0, 1, 2, 3, 4] (fun l => l) (fun l => l) 1 2
      (by decide) (fun _ => rfl) (fun _ => rfl) 7 (by decide)⟩

/-- C2 (code bug): the range guard of `__getitem__` is the chained
comparison `0 > i > len(self)`, which no integer satisfies, so negative
indices are not rejected; on the dataset built from base `[0, 1]` with
`batch_size = 2` and `n_walkback = 0` (`len = 4`), `get(-1)` returns the
valid pair `(1, 1)` through Python's negative indexing instead of
raising `IndexError`. -/
theorem getItem_negative_index_returns_value :
    (mkWalkbackDataset [0, 1] (fun l : List Nat => l) (fun l => l) 0 2).getItem
        (-1) = some (1, 1) ∧
    (mkWalkbackDataset [0, 1] (fun l : List Nat => l)
      (fun l => l) 0 2).len = 4 := by
  decide

/-- C3: for a dataset built from a non-empty base partitioned without
shuffling into `batch_size`-sized batches (smaller final batch allowed),
`len(dataset)` equals
`(num_batches - 1) * batch_size * n_total + n_total * size_of_last_batch`,
where the number of batches is `⌈|base| / batch_size⌉` and the last batch
holds the remaining elements; if the base has exactly `batch_size`
elements, `len = batch_size * n_total`. -/
theorem walkback_len_formula {β : Type*} (base : List β)
    (model corrupt : List β → List β) (nw bs : Nat) (hbase : base ≠ [])
    (hbs : bs ≠ 0) :
    (mkWalkbackDataset base model corrupt nw bs).len =
      ((toBatches bs base).length - 1) * bs * (2 + nw) +
        (2 + nw) * ((toBatches bs base).getLastD []).length ∧
    (toBatches bs base).length = (base.length + bs - 1) / bs ∧
    ((toBatches bs base).getLastD []).length =
      base.length - ((toBatches bs base).length - 1) * bs ∧
    (base.length = bs →
      (mkWalkbackDataset base model corrupt nw bs).len = bs * (2 + nw)) := by
  have hPne : toBatches bs base ≠ [] := by
    intro h0
    exact hbase ((toBatches_eq_nil_iff hbs base).mp h0)
  refine ⟨?_, toBatches_length hbs base hbase,
    toBatches_getLastD_length hbs base hbase, ?_⟩
  · unfold WalkbackDataset.len mkWalkbackDataset
    simp only [List.length_map]
    rw [getLastD_map (fun b => (b, wchain model corrupt (2 + nw) b))
      (toBatches bs base) hPne ([], []) []]
  · intro hlen
    have hP : toBatches bs base = [base] := by
      cases base with
      | nil => exact absurd rfl hbase
      | cons x xs =>
        rw [toBatches_cons hbs,
          List.drop_eq_nil_of_le (le_of_eq hlen),
          List.take_of_length_le (le_of_eq hlen)]
        rfl
    unfold WalkbackDataset.len mkWalkbackDataset
    rw [hP]
    simp only [List.map_cons, List.map_nil, List.length_cons,
      List.length_nil, List.getLastD_cons, List.getLastD_nil]
    rw [hlen]
    have h1 : (2 + nw) * bs = bs * (2 + nw) := Nat.mul_comm _ _
    omega

/-- C3 witness: the spec's concrete scenario (5 samples,
`batch_size = 2`, `n_walkback = 1`, hence `n_total = 3` and
`len = 2*2*3 + 3*1 = 15`). -/
theorem walkback_len_formula_witness :
    ([0, 1, 2, 3, 4] : List Nat) ≠ [] ∧ (2 : Nat) ≠ 0 ∧
    (mkWalkbackDataset [0, 1, 2, 3, 4] (fun l : List Nat => l)
        (fun l => l) 1 2).len =
      ((toBatches 2 [0, 1, 2, 3, 4]).length - 1) * 2 * (2 + 1) +
        (2 + 1) * ((toBatches 2 ([0, 1, 2, 3, 4] : List Nat)).getLastD
          []).length :=
  ⟨by decide, by decide,
    (walkback_len_formula [0, 1, 2, 3, 4] (fun l => l) (fun l => l) 1 2
      (by decide) (by decide)).1⟩

/-! Facts about the stochastic layers. -/

theorem softmax_length {F : Type*} [Field F] (exp : F → F) (l : List F) :
    (softmax exp l).length = l.length := by
  simp [softmax]

theorem zipWith_add_sub_cancel {F : Type*} [AddGroup F] :
    ∀ (e p : List F), e.length = p.length →
      (e.zipWith (· + ·) p).zipWith (· - ·) p = e := by
  intro e
  induction e with
  | nil => intro p _; simp
  | cons a e ih =>
    intro p hp
    cases p with
    | nil => simp at hp
    | cons b p =>
      simp only [List.zipWith_cons_cons, add_sub_cancel_right, List.cons.injEq,
        true_and]
      exact ih p (by simpa using hp)

theorem stRow_eq {F : Type*} [Field F] (exp : F → F) (eRow row : List F)
    (h : eRow.length = row.length) : stRow exp eRow row = eRow := by
  unfold stRow detach
  exact zipWith_add_sub_cancel eRow (softmax exp row)
    (by rw [softmax_length, h])

theorem oneHot_length {F : Type*} [Zero F] [One F] (D j : Nat) :
    (oneHotEmbedding D j : List F).length = D := by
  simp [oneHotEmbedding]

theorem sum_map_div {F : Type*} [DivisionRing F] {γ : Type*} (f : γ → F)
    (c : F) : ∀ (l : List γ),
      (l.map fun z => f z / c).sum = (l.map f).sum / c := by
  intro l
  induction l with
  | nil => simp
  | cons a l ih => simp [ih, add_div]

theorem exp_sum_pos (row : List ℝ) (hne : row ≠ []) :
    0 < (row.map Real.exp).sum := by
  refine List.sum_pos _ (fun x hx => ?_) (by simpa using hne)
  obtain ⟨z, _, rfl⟩ := List.mem_map.mp hx
  exact Real.exp_pos z

theorem softmax_normRow (row : List ℝ) (hne : row ≠ []) :
    softmax Real.exp (normRow Real.exp Real.log row) = softmax Real.exp row ∧
    logsumexp Real.exp Real.log (normRow Real.exp Real.log row) = 0 := by
  have hS : 0 < (row.map Real.exp).sum := exp_sum_pos row hne
  have key : (normRow Real.exp Real.log row).map Real.exp =
      row.map fun z => Real.exp z / (row.map Real.exp).sum := by
    unfold normRow logsumexp
    rw [List.map_map]
    refine List.map_congr_left fun z _ => ?_
    simp only [Function.comp_apply, Real.exp_sub, Real.exp_log hS]
  have hsum1 : ((normRow Real.exp Real.log row).map Real.exp).sum = 1 := by
    rw [key, sum_map_div]
    exact div_self (ne_of_gt hS)
  constructor
  · show (normRow Real.exp Real.log row).map
        (fun z => Real.exp z /
          ((normRow Real.exp Real.log row).map Real.exp).sum) = _
    have h1 : (normRow Real.exp Real.log row).map
        (fun z => Real.exp z /
          ((normRow Real.exp Real.log row).map Real.exp).sum) =
        (normRow Real.exp Real.log row).map Real.exp := by
      refine List.map_congr_left fun z _ => ?_
      rw [hsum1, div_one]
    rw [h1, key]
    rfl
  · show Real.log ((normRow Real.exp Real.log row).map Real.exp).sum = 0
    rw [hsum1, Real.log_one]

theorem zip_self {γ : Type*} : ∀ (l : List γ),
    l.zip l = l.map fun a => (a, a) := by
  intro l
  induction l with
  | nil => rfl
  | cons a l ih => simp [List.zip_cons_cons, ih]

/-- C8: constructing `CategoricalStraightThrough` or `DiagonalGuassian`
succeeds exactly when the normalized latent shape has rank 1; any other
rank (e.g. a 2-D latent shape) is rejected at construction, before any
data is processed. -/
theorem stochastic_layer_construction_rank1 (s : ShapeSpec) (nrm oh : Bool) :
    ((mkCategoricalStraightThrough s nrm oh).isSome ↔
      (as_shape s).length = 1) ∧
    ((mkDiagonalGuassian s).isSome ↔ (as_shape s).length = 1) := by
  by_cases h : (as_shape s).length = 1 <;>
    simp [mkCategoricalStraightThrough, mkDiagonalGuassian, h]

/-- C7: the KL divergence of a diagonal Gaussian row against itself is
exactly 0 (the general-mode formula collapses to
`(D - D) / 2`), and in standard-normal mode `kl_divergence(0, 0)` is
exactly 0, in real arithmetic. -/
theorem kl_divergence_self_eq_zero (mu logvar : List ℝ)
    (hlen : mu.length = logvar.length) :
    kl_divergence Real.exp mu logvar (some mu) (some logvar) = some 0 ∧
    ∀ D : Nat, kl_divergence Real.exp (List.replicate D (0 : ℝ))
      (List.replicate D (0 : ℝ)) none none = some 0 := by
  constructor
  · show some _ = some (0 : ℝ)
    congr 1
    have hone : ((mu.zip logvar).zip (mu.zip logvar)).map
        (fun p => p.1.2 - p.2.2 +
          (p.1.1 - p.2.1) * (1 / Real.exp p.2.2) * (p.1.1 - p.2.1) +
          (1 / Real.exp p.2.2) * Real.exp p.1.2) =
        (mu.zip logvar).map fun _ => (1 : ℝ) := by
      rw [zip_self (mu.zip logvar), List.map_map]
      refine List.map_congr_left fun p _ => ?_
      simp only [Function.comp_apply, sub_self, zero_mul, mul_zero, zero_add,
        add_zero, one_div, inv_mul_cancel₀ (Real.exp_ne_zero p.2)]
    rw [hone, List.map_const', List.sum_replicate, nsmul_eq_mul, mul_one,
      List.length_zip, hlen, min_self]
    simp
  · intro D
    show some _ = some (0 : ℝ)
    congr 1
    have hzip : (List.replicate D (0 : ℝ)).zip (List.replicate D (0 : ℝ)) =
        List.replicate D ((0 : ℝ), (0 : ℝ)) := by
      rw [zip_self, List.map_replicate]
    rw [hzip, List.map_replicate]
    simp [List.sum_replicate]

/-- C7 witness: a one-dimensional Gaussian with `mu = [0]`,
`logvar = [0]`. -/
theorem kl_divergence_self_eq_zero_witness :
    ([(0 : ℝ)].length = [(0 : ℝ)].length) ∧
    (kl_divergence Real.exp [(0 : ℝ)] [(0 : ℝ)] (some [(0 : ℝ)])
        (some [(0 : ℝ)]) = some 0 ∧
      ∀ D : Nat, kl_divergence Real.exp (List.replicate D (0 : ℝ))
        (List.replicate D (0 : ℝ)) none none = some 0) :=
  ⟨rfl, kl_divergence_self_eq_zero [0] [0] rfl⟩

/-- C4 witness (for the amended claim): the identity model and identity
corruption on a singleton seed, at depth 3. -/
theorem chain_spec_witness :
    (1 : Nat) ≤ 3 ∧
    ((chain [0] (fun l : List Nat => l) (fun l => l) 3).length = 3 ∧
      (chain [0] (fun l : List Nat => l) (fun l => l) 3)[0]? = some [0] ∧
      (∀ i, i + 1 < 3 →
        (chain [0] (fun l : List Nat => l) (fun l => l) 3)[i + 1]? =
          ((chain [0] (fun l : List Nat => l) (fun l => l) 3)[i]?).map
            fun p => p) ∧
      (∀ {γ : Type*} (sh : List Nat → γ), (∀ z, sh z = sh z) →
        (∀ z, sh z = sh z) →
        ∀ e ∈ chain [0] (fun l : List Nat => l) (fun l => l) 3,
          sh e = sh [0])) :=
  ⟨by decide, chain_spec [0] (fun l => l) (fun l => l) 3 (by decide)⟩

/-- Unfolding of `CategoricalStraightThrough.forward` when the reshape
to `(-1, D)` succeeds. -/
theorem categoricalForward_eq {F : Type*} [Field F] (exp log : F → F)
    (embed : Nat → List F) (normalise : Bool) (D : Nat) (draw : Nat → Nat)
    (logits : Tensor F) (h : D ≠ 0 ∧ D ∣ logits.data.length) :
    categoricalForward exp log embed normalise D draw logits =
      some (⟨logits.shape,
        ((if normalise then (toBatches D logits.data).map (normRow exp log)
          else toBatches D logits.data).enum.map
            fun p => stRow exp (embed (draw p.1)) p.2).flatten⟩,
        ⟨[logits.data.length / D, D],
          (if normalise then (toBatches D logits.data).map (normRow exp log)
            else toBatches D logits.data).flatten⟩) := by
  unfold categoricalForward
  rw [if_pos h]

theorem normRow_length {F : Type*} [Field F] (exp log : F → F) (l : List F) :
    (normRow exp log l).length = l.length := by
  simp [normRow]

/-- C6: using the one-hot embedding, the forward value of the sample
returned by `CategoricalStraightThrough.forward` is exactly the one-hot
embedding of each row's drawn index, re-viewed in the shape of the input
logits (the straight-through term `probs - probs.detach()` vanishes in
forward value, last conjunct), and each returned row has a `1` exactly at
the drawn category and `0` everywhere else. -/
theorem categoricalST_forward_value (logits : Tensor ℝ) (D : Nat)
    (draw : Nat → Nat) (nrm : Bool) (hD : D ≠ 0)
    (hdvd : D ∣ logits.data.length) (hdraw : ∀ r, draw r < D) :
    categoricalForward Real.exp Real.log (oneHotEmbedding D) nrm D draw
        logits =
      some (⟨logits.shape,
        ((List.range (logits.data.length / D)).map
          fun r => oneHotEmbedding D (draw r)).flatten⟩,
        ⟨[logits.data.length / D, D],
          (if nrm then (toBatches D logits.data).map
              (normRow Real.exp Real.log)
            else toBatches D logits.data).flatten⟩) ∧
    (∀ r, (oneHotEmbedding D (draw r) : List ℝ)[draw r]? = some 1 ∧
      ∀ k, k < D → k ≠ draw r →
        (oneHotEmbedding D (draw r) : List ℝ)[k]? = some 0) ∧
    (∀ p : List ℝ, p.zipWith (· - ·) (detach p) =
      List.replicate p.length 0) := by
  have hrows : ∀ row ∈ (if nrm then (toBatches D logits.data).map
      (normRow Real.exp Real.log) else toBatches D logits.data),
      row.length = D := by
    intro row hrow
    cases nrm with
    | true =>
      obtain ⟨row0, h0, rfl⟩ := List.mem_map.mp (by simpa using hrow)
      rw [normRow_length]
      exact (toBatches_of_dvd hD _ hdvd).1 row0 h0
    | false => exact (toBatches_of_dvd hD _ hdvd).1 row (by simpa using hrow)
  have hcnt : (if nrm then (toBatches D logits.data).map
      (normRow Real.exp Real.log) else toBatches D logits.data).length =
      logits.data.length / D := by
    cases nrm <;> simp [(toBatches_of_dvd hD _ hdvd).2]
  refine ⟨?_, ?_, ?_⟩
  · rw [categoricalForward_eq Real.exp Real.log (oneHotEmbedding D) nrm D draw
      logits ⟨hD, hdvd⟩]
    set L := (if nrm then (toBatches D logits.data).map
      (normRow Real.exp Real.log) else toBatches D logits.data) with hL
    have houtr : L.enum.map
          (fun p => stRow Real.exp (oneHotEmbedding D (draw p.1)) p.2) =
        (List.range (logits.data.length / D)).map
          fun r => oneHotEmbedding D (draw r) := by
      rw [← hcnt]
      refine List.ext_getElem? fun k => ?_
      rw [List.getElem?_map, List.getElem?_map,
        show L.enum = L.enumFrom 0 from rfl, List.getElem?_enumFrom]
      by_cases hk : k < L.length
      · rw [List.getElem?_range hk, List.getElem?_eq_getElem hk]
        simp only [Option.map_some', Nat.zero_add]
        rw [stRow_eq Real.exp _ _
          (by rw [oneHot_length]; exact (hrows _ (List.getElem_mem hk)).symm)]
      · rw [List.getElem?_eq_none (by omega : L.length ≤ k),
          List.getElem?_eq_none
            (by simpa using le_of_not_lt hk : (List.range L.length).length ≤ k)]
        rfl
    rw [houtr]
  · intro r
    constructor
    · rw [show (oneHotEmbedding D (draw r) : List ℝ) =
        (List.range D).map fun k => if k = draw r then 1 else 0 from rfl,
        List.getElem?_map, List.getElem?_range (hdraw r)]
      simp
    · intro k hk hkne
      rw [show (oneHotEmbedding D (draw r) : List ℝ) =
        (List.range D).map fun k => if k = draw r then 1 else 0 from rfl,
        List.getElem?_map, List.getElem?_range hk]
      simp [hkne]
  · intro p
    unfold detach
    induction p with
    | nil => rfl
    | cons a p ih => simp [List.zipWith_cons_cons, ih, List.replicate_succ]

/-- C6 witness: logits of shape `(2, 2)` with `D = 2`, the sampler
always drawing category 1, without normalisation. -/
theorem categoricalST_forward_value_witness :
    ((2 : Nat) ≠ 0) ∧
    (2 ∣ (⟨[2, 2], [0, 1, 2, 3]⟩ : Tensor ℝ).data.length) ∧
    (∀ r : Nat, (fun _ : Nat => 1) r < 2) ∧
    (categoricalForward Real.exp Real.log (oneHotEmbedding 2) false 2
        (fun _ => 1) ⟨[2, 2], [0, 1, 2, 3]⟩ =
      some (⟨[2, 2],
          ((List.range 2).map fun _ => oneHotEmbedding 2 1).flatten⟩,
        ⟨[2, 2], (toBatches 2 ([0, 1, 2, 3] : List ℝ)).flatten⟩) ∧
      (∀ _r : Nat, (oneHotEmbedding 2 1 : List ℝ)[(1 : Nat)]? = some 1 ∧
        ∀ k, k < 2 → k ≠ 1 →
          (oneHotEmbedding 2 1 : List ℝ)[k]? = some 0) ∧
      (∀ p : List ℝ, p.zipWith (· - ·) (detach p) =
        List.replicate p.length 0)) :=
  ⟨by decide, by decide, fun _ => (by decide : (1 : Nat) < 2),
    categoricalST_forward_value ⟨[2, 2], [0, 1, 2, 3]⟩ 2 (fun _ => 1) false
      (by decide) (by decide) (fun _ => (by decide : (1 : Nat) < 2))⟩

theorem stRow_normRow (eRow row : List ℝ) (hne : row ≠ []) :
    stRow Real.exp eRow (normRow Real.exp Real.log row) =
      stRow Real.exp eRow row := by
  unfold stRow
  rw [(softmax_normRow row hne).1]

/-- C10: normalising the logits (subtracting the per-row log-sum-exp)
changes neither the probability vector nor the forward sample value of
`CategoricalStraightThrough.forward`; only the logits returned alongside
differ, and the normalised ones have per-row log-sum-exp 0. -/
theorem categoricalST_normalise_same_forward (logits : Tensor ℝ) (D : Nat)
    (draw : Nat → Nat) (embed : Nat → List ℝ) :
    ((categoricalForward Real.exp Real.log embed true D draw logits).map
        Prod.fst =
      (categoricalForward Real.exp Real.log embed false D draw logits).map
        Prod.fst) ∧
    (∀ row : List ℝ, row ≠ [] →
      softmax Real.exp (normRow Real.exp Real.log row) =
        softmax Real.exp row ∧
      logsumexp Real.exp Real.log (normRow Real.exp Real.log row) = 0) := by
  constructor
  · by_cases hcond : D ≠ 0 ∧ D ∣ logits.data.length
    · rw [categoricalForward_eq Real.exp Real.log embed true D draw logits
        hcond, categoricalForward_eq Real.exp Real.log embed false D draw
        logits hcond]
      rw [if_pos rfl, if_neg Bool.false_ne_true]
      simp only [Option.map_some']
      have heq : ((toBatches D logits.data).map
          (normRow Real.exp Real.log)).enum.map
            (fun p => stRow Real.exp (embed (draw p.1)) p.2) =
          (toBatches D logits.data).enum.map
            (fun p => stRow Real.exp (embed (draw p.1)) p.2) := by
        refine List.ext_getElem? fun k => ?_
        rw [List.getElem?_map, List.getElem?_map,
          show ((toBatches D logits.data).map
            (normRow Real.exp Real.log)).enum =
            ((toBatches D logits.data).map
              (normRow Real.exp Real.log)).enumFrom 0 from rfl,
          show (toBatches D logits.data).enum =
            (toBatches D logits.data).enumFrom 0 from rfl,
          List.getElem?_enumFrom, List.getElem?_enumFrom,
          List.getElem?_map]
        by_cases hk : k < (toBatches D logits.data).length
        · rw [List.getElem?_eq_getElem hk]
          simp only [Option.map_some', Nat.zero_add]
          rw [stRow_normRow _ _
            (toBatches_mem hcond.1 logits.data _ (List.getElem_mem hk)).2]
        · rw [List.getElem?_eq_none (by omega)]
          rfl
      rw [heq]
    · unfold categoricalForward
      rw [if_neg hcond, if_neg hcond]
  · exact fun row hne => softmax_normRow row hne

/-- C9: `DiagonalGuassian.forward` returns the sample in the original
input shape, but returns `mu` and `logvar` still flattened to shape
`(N, D)` — not reshaped back to the original shape; whenever the
original shape differs from `(N, D)` (e.g. several latent blocks per
row), the returned `mu` shape differs from the input shape. -/
theorem diagonalGuassian_forward_reshapes {F : Type*} [Field F]
    (exp : F → F) (noise : List F) (D : Nat) (mu logvar : Tensor F)
    (hsh : mu.shape = logvar.shape) (hD : D ≠ 0)
    (hdvd : D ∣ mu.data.length) (hlv : logvar.data.length = mu.data.length) :
    diagonalGuassianForward exp noise D mu logvar =
      some (⟨mu.shape, (noise.zip (mu.data.zip logvar.data)).map
          fun p => p.1 * exp (p.2.2 / 2) + p.2.1⟩,
        ⟨[mu.data.length / D, D], mu.data⟩,
        ⟨[mu.data.length / D, D], logvar.data⟩) ∧
    (mu.shape ≠ [mu.data.length / D, D] →
      (⟨[mu.data.length / D, D], mu.data⟩ : Tensor F).shape ≠ mu.shape) := by
  constructor
  · unfold diagonalGuassianForward reshapeRows
    rw [if_pos hsh, if_pos ⟨hD, hdvd⟩, if_pos ⟨hD, by rw [hlv]; exact hdvd⟩]
    simp only [Option.some_bind]
    rw [hlv]
  · intro hne h
    exact hne h.symm

/-- C9 witness: `mu` of shape `(1, 4)` with latent dimension `D = 2`
(two latent blocks per row): the sample keeps shape `(1, 4)` while the
returned `mu`/`logvar` come back with shape `(2, 2)`. -/
theorem diagonalGuassian_forward_reshapes_witness :
    ((⟨[1, 4], [1, 2, 3, 4]⟩ : Tensor ℚ).shape =
      (⟨[1, 4], [0, 0, 0, 0]⟩ : Tensor ℚ).shape) ∧
    ((2 : Nat) ≠ 0) ∧
    (2 ∣ (⟨[1, 4], [1, 2, 3, 4]⟩ : Tensor ℚ).data.length) ∧
    (diagonalGuassianForward (fun q : ℚ => q) [1, 1, 1, 1] 2
        ⟨[1, 4], [1, 2, 3, 4]⟩ ⟨[1, 4], [0, 0, 0, 0]⟩ =
      some (⟨[1, 4], (([1, 1, 1, 1] : List ℚ).zip
          (([1, 2, 3, 4] : List ℚ).zip [0, 0, 0, 0])).map
            fun p => p.1 * (p.2.2 / 2) + p.2.1⟩,
        ⟨[2, 2], [1, 2, 3, 4]⟩, ⟨[2, 2], [0, 0, 0, 0]⟩)) :=
  ⟨rfl, by decide, by decide,
    (diagonalGuassian_forward_reshapes (fun q : ℚ => q) [1, 1, 1, 1] 2
      ⟨[1, 4], [1, 2, 3, 4]⟩ ⟨[1, 4], [0, 0, 0, 0]⟩ rfl (by decide)
      (by decide) rfl).1⟩

end Nnu
